import Mathlib

/-!
Verification of the LRC timestamp index and playback-synchronization engine
of `lyricsync_pro/app.py` (class `MainWindow`), via a shallow embedding.

Modelling conventions:
* Python `float` is modelled as `ℚ` (exact rational arithmetic; every offset
  produced by the code is a decimal with at most three fractional digits, so
  the rational model is exact and in particular within the spec's 1e-6
  tolerance).
* Python strings are Lean `String`s / `List Char`; the regular expression
  `\[(\d{1,2}):(\d{2})(?:\.(\d{1,3}))?\]` from `rebuild_lrc_index` is embedded
  as an explicit backtracking matcher (`matchAt`) with exactly the regex
  engine's alternative ordering (greedy quantifiers, optional group tried
  present-first), and `re.finditer`'s first match is the leftmost position at
  which `matchAt` succeeds (`scanMatch`).  `\d` is modelled as the ASCII
  digits `0`-`9` (Python's `\d` also accepts other Unicode decimal digits;
  texts are restricted to ASCII digits, which is what every claim concerns).
* Python's `str.splitlines` is modelled for the line boundaries `\r\n`, `\r`,
  `\n` (the rarer Unicode boundary characters are outside the modelled
  character universe), including its no-trailing-empty-line behaviour.
* Python's stable `list.sort(key=lambda x: x[0])` is modelled by Mathlib's
  `List.insertionSort` with the relation `a.1 ≤ b.1`, which is also a stable
  sort by the same key; a stable sort by a fixed key is unique as a function,
  so the modelled output list equals CPython's.
-/

/-- Exactly `n` ASCII digits from the front of `cs`; returns the digit run and
the remaining characters (the regex pieces `\d{2}`, and the individual
alternatives of `\d{1,2}` and `\d{1,3}`). -/
def takeDigits : Nat → List Char → Option (List Char × List Char)
  | 0, cs => some ([], cs)
  | _ + 1, [] => none
  | n + 1, c :: cs =>
      if c.isDigit then
        (takeDigits n cs).map (fun p => (c :: p.1, p.2))
      else none

/-- One alternative of the fraction group: exactly `n` digits immediately
followed by the closing `]`. -/
def tryFracN (n : Nat) (cs : List Char) : Option (List Char) :=
  match takeDigits n cs with
  | some (d, ']' :: _) => some d
  | _ => none

/-- The tail `(?:\.(\d{1,3}))?\]` of the regex, starting right after the
seconds digits: the optional group is tried present-first, and inside it the
greedy `\d{1,3}` tries three digits, then two, then one; if the group cannot
match, `]` must follow directly.  Returns the captured fraction digits
(`none` = group absent). -/
def matchFracClose (cs : List Char) : Option (Option (List Char)) :=
  match cs with
  | '.' :: cs1 =>
      match tryFracN 3 cs1 with
      | some d => some (some d)
      | none =>
          match tryFracN 2 cs1 with
          | some d => some (some d)
          | none =>
              match tryFracN 1 cs1 with
              | some d => some (some d)
              | none => none
  | ']' :: _ => some none
  | _ => none

/-- The regex tail `:(\d{2})(?:\.(\d{1,3}))?\]` starting right after the
minutes digits: returns the captured seconds digits and optional fraction
digits. -/
def matchAfterMM (cs : List Char) : Option (List Char × Option (List Char)) :=
  match cs with
  | ':' :: cs1 =>
      match takeDigits 2 cs1 with
      | some (ss, cs2) =>
          match matchFracClose cs2 with
          | some fr => some (ss, fr)
          | none => none
      | none => none
  | _ => none

/-- Attempt of the whole regex `\[(\d{1,2}):(\d{2})(?:\.(\d{1,3}))?\]` at one
position: `[`, then the greedy `\d{1,2}` (two digits first, backtracking to
one when the rest of the pattern fails), then `matchAfterMM`.  Returns the
three captured groups (minutes digits, seconds digits, optional fraction
digits). -/
def matchAt (cs : List Char) : Option (List Char × List Char × Option (List Char)) :=
  match cs with
  | '[' :: cs1 =>
      match takeDigits 2 cs1 with
      | some (mm, cs2) =>
          match matchAfterMM cs2 with
          | some sf => some (mm, sf)
          | none =>
              match takeDigits 1 cs1 with
              | some (m1, cs2') =>
                  match matchAfterMM cs2' with
                  | some sf => some (m1, sf)
                  | none => none
              | none => none
      | none =>
          match takeDigits 1 cs1 with
          | some (m1, cs2') =>
              match matchAfterMM cs2' with
              | some sf => some (m1, sf)
              | none => none
          | none => none
  | _ => none

/-- The first (leftmost) match of the timestamp regex in a line:
`re.finditer(...)` immediately followed by `break` in `rebuild_lrc_index`
uses only the match at the least starting position. -/
def scanMatch : List Char → Option (List Char × List Char × Option (List Char))
  | [] => none
  | c :: cs =>
      match matchAt (c :: cs) with
      | some g => some g
      | none => scanMatch cs

/-- Numeric value of a run of ASCII digits (Python's `int(...)` on the
captured group). -/
def digitsToNat (ds : List Char) : Nat :=
  ds.foldl (fun acc c => acc * 10 + (c.toNat - '0'.toNat)) 0

/-- The offset computation of `rebuild_lrc_index` (app.py lines 803-816):
`frac = m.group(3) or "0"`, the three-way branch on the fraction length
(`/10`, `/100`, `int(frac[:3])/1000`), and `t = mm*60 + ss + frac_sec`. -/
def tagSeconds (mm ss : List Char) (fr : Option (List Char)) : ℚ :=
  let frac := fr.getD ['0']
  let frac_sec : ℚ :=
    if frac.length = 1 then (digitsToNat frac : ℚ) / 10
    else if frac.length = 2 then (digitsToNat frac : ℚ) / 100
    else (digitsToNat (frac.take 3) : ℚ) / 1000
  (digitsToNat mm : ℚ) * 60 + (digitsToNat ss : ℚ) + frac_sec

/-- The per-line work of `rebuild_lrc_index`: the offset of the leftmost
timestamp tag of the line, or `none` when the regex matches nowhere in it. -/
def firstTag (line : String) : Option ℚ :=
  (scanMatch line.data).map (fun g => tagSeconds g.1 g.2.1 g.2.2)

/-- Python `str.splitlines` over the modelled boundaries `\r\n`, `\r`, `\n`
(accumulator holds the current line reversed; no trailing empty line). -/
def splitLinesAux : List Char → List Char → List String
  | [], acc => if acc = [] then [] else [String.mk acc.reverse]
  | '\r' :: '\n' :: rest, acc => String.mk acc.reverse :: splitLinesAux rest []
  | '\r' :: rest, acc => String.mk acc.reverse :: splitLinesAux rest []
  | '\n' :: rest, acc => String.mk acc.reverse :: splitLinesAux rest []
  | c :: rest, acc => splitLinesAux rest (c :: acc)

/-- `text.splitlines()` as used by `rebuild_lrc_index`. -/
def splitLines (s : String) : List String :=
  splitLinesAux s.data []

/-- The scan loop of `rebuild_lrc_index`: enumerate the lines, and for each
line with a leftmost tag append `(t, i)` (the `break` keeps only the first
tag of a line). -/
def scanEntries (lines : List String) : List (ℚ × Nat) :=
  lines.enum.filterMap (fun p => (firstTag p.2).map (fun t => (t, p.1)))

/-- `rebuild_lrc_index` (app.py lines 798-818) as a function of the editor
text: scan all lines, then `self._lrc_index.sort(key=lambda x: x[0])` — a
stable sort by the offset, modelled by `insertionSort` with `a.1 ≤ b.1`. -/
def rebuild_lrc_index (text : String) : List (ℚ × Nat) :=
  List.insertionSort (fun a b => a.1 ≤ b.1) (scanEntries (splitLines text))

/-- The two paired text views of the window. -/
inductive View
  | editor
  | editorOriginal
deriving DecidableEq, Repr

/-- Vertical alignment mode of `_scroll_editor_view_to_line`. -/
inductive Align
  | top
  | center
  | bottom
deriving DecidableEq, Repr

/-- Observable UI commands emitted by `update_lrc_highlight`. -/
inductive Cmd
  | scrollBoth (line : Nat)
  | highlight (v : View) (line : Nat)
deriving DecidableEq, Repr

/-- The runtime state the core reads and writes (`_build_ui`, app.py lines
259-265): the published index, the de-duplication line, and the scroll
reentrancy flag. -/
structure SyncState where
  lrc_index : List (ℚ × Nat)
  current_line_no : ℤ
  sync_lock : Bool
deriving DecidableEq, Repr

/-- The scan loop of `update_lrc_highlight` (app.py lines 823-828):
`idx = 0; for j, (t, _) in enumerate(index): if t <= current_sec: idx = j
else: break` — `j` is the position of the head of the remaining list, `idx`
the best index so far. -/
def scanLastLe (cur : ℚ) : List (ℚ × Nat) → Nat → Nat → Nat
  | [], _, idx => idx
  | e :: rest, j, idx => if e.1 ≤ cur then scanLastLe cur rest (j + 1) j else idx

/-- The line-resolution part of `update_lrc_highlight`: `none` on an empty
index (the early `return`), otherwise the line of `index[idx]` (always in
range; the `getD` default is never used). -/
def resolveLine (index : List (ℚ × Nat)) (cur : ℚ) : Option Nat :=
  match index with
  | [] => none
  | _ :: _ => some (index.getD (scanLastLe cur index 0 0) (0, 0)).2

/-- `update_lrc_highlight` (app.py lines 820-837) as a state transformer with
its emitted UI commands: resolve the line; when it differs from
`_current_line_no`, record it and emit the scroll-both command and the two
highlight commands, in source order; otherwise do nothing. -/
def update_lrc_highlight (st : SyncState) (cur : ℚ) : SyncState × List Cmd :=
  match resolveLine st.lrc_index cur with
  | none => (st, [])
  | some line_no =>
      if (line_no : ℤ) ≠ st.current_line_no then
        ({ st with current_line_no := (line_no : ℤ) },
          [Cmd.scrollBoth line_no, Cmd.highlight View.editor line_no,
            Cmd.highlight View.editorOriginal line_no])
      else (st, [])

/-- The effect of `rebuild_lrc_index` on the runtime state: the index is
recomputed from the current editor text alone; `_current_line_no` and
`_sync_lock` are untouched. -/
def rebuild_state (st : SyncState) (text : String) : SyncState :=
  { st with lrc_index := rebuild_lrc_index text }

/-- State set up at the end of `_build_ui` (app.py lines 259-265): empty
index, `_current_line_no = -1`, `_sync_lock = False`. -/
def build_ui_state : SyncState :=
  { lrc_index := [], current_line_no := -1, sync_lock := false }

/-- The core-state effect of `load_audio` (app.py lines 564-589): when a
`.lrc` file exists beside the audio its content is loaded into both editors
and the index rebuilt from it, otherwise the editors are cleared and the
index reset to `[]`; `_current_line_no` is not touched.  (Player, label and
settings side effects are outside the modelled state.) -/
def load_audio (st : SyncState) (lrcExists : Bool) (content : String) : SyncState :=
  if lrcExists then { st with lrc_index := rebuild_lrc_index content }
  else { st with lrc_index := [] }

/-- The successive values held by the published attribute `self._lrc_index`
during one run of `rebuild_lrc_index`, statement by statement: the value on
entry, the fresh empty list bound by `self._lrc_index = []`, the list after
each `append`, and the list after the in-place `sort`. -/
def rebuildTrace (old : List (ℚ × Nat)) (text : String) : List (List (ℚ × Nat)) :=
  let entries := scanEntries (splitLines text)
  old :: (List.range (entries.length + 1)).map entries.take
    ++ [List.insertionSort (fun a b => a.1 ≤ b.1) entries]

/-- Outcome of one inner view adjustment (`_scroll_editor_view_to_line`): the
Qt-side scroll either happens or the call raises.  The adjustment manipulates
widget geometry, which is outside the embedding, so the coupling functions
are parametrised by its behaviour. -/
inductive AdjOutcome
  | performed
  | raised
deriving DecidableEq, Repr

/-- Result of running one coupling entry point: the final `_sync_lock`, the
scroll adjustments actually applied (view, line, alignment, in order), and
whether an exception propagated to the caller. -/
structure CoupleResult where
  lock : Bool
  scrolls : List (View × Nat × Align)
  raised : Bool
deriving DecidableEq, Repr

/-- `_scroll_both_to_line` (app.py lines 851-861): return at once when
`_sync_lock` is held; otherwise set the lock, adjust the original view then
the editable view (centered), and reset the lock in a `finally` even when an
adjustment raises. -/
def scroll_both_to_line (lock : Bool) (adj : View → Nat → Align → AdjOutcome)
    (line : Nat) : CoupleResult :=
  if lock then { lock := lock, scrolls := [], raised := false }
  else
    match adj View.editorOriginal line Align.center with
    | AdjOutcome.raised => { lock := false, scrolls := [], raised := true }
    | AdjOutcome.performed =>
        match adj View.editor line Align.center with
        | AdjOutcome.raised =>
            { lock := false, scrolls := [(View.editorOriginal, line, Align.center)],
              raised := true }
        | AdjOutcome.performed =>
            { lock := false,
              scrolls := [(View.editorOriginal, line, Align.center),
                (View.editor, line, Align.center)],
              raised := false }

/-- `_sync_scroll_from` (app.py lines 889-904): return at once when
`_sync_lock` is held; otherwise set the lock, read the source view's top
visible line (`srcTopLine`, a Qt query outside the embedding), clamp it with
`max(0, min(bn, dst.blockCount() - 1))`, top-align the destination view to
it, and reset the lock in a `finally` even when the adjustment raises. -/
def sync_scroll_from (lock : Bool) (adj : View → Nat → Align → AdjOutcome)
    (srcTopLine : Nat) (dstBlockCount : Nat) (dst : View) : CoupleResult :=
  if lock then { lock := lock, scrolls := [], raised := false }
  else
    let bn : ℤ := max 0 (min (srcTopLine : ℤ) ((dstBlockCount : ℤ) - 1))
    match adj dst bn.toNat Align.top with
    | AdjOutcome.raised => { lock := false, scrolls := [], raised := true }
    | AdjOutcome.performed =>
        { lock := false, scrolls := [(dst, bn.toNat, Align.top)], raised := false }

/-- Written from the spec's words, for comparison with `resolveLine`: the
line number of the greatest entry whose `offset_seconds <= time_sec`, none if
the index is empty or `time_sec` is before the first entry. -/
def lookupSpec (index : List (ℚ × Nat)) (t : ℚ) : Option Nat :=
  ((index.filter (fun e => e.1 ≤ t)).getLast?).map Prod.snd

/-! Helper lemmas about the lookup scan. -/

theorem scanLastLe_eq (cur : ℚ) :
    ∀ (l : List (ℚ × Nat)) (j idx : Nat),
      scanLastLe cur l j idx =
        if (l.takeWhile (fun e => e.1 ≤ cur)).length = 0 then idx
        else j + (l.takeWhile (fun e => e.1 ≤ cur)).length - 1 := by
  intro l
  induction l with
  | nil => intro j idx; simp [scanLastLe]
  | cons e rest ih =>
    intro j idx
    by_cases he : e.1 ≤ cur
    · rw [scanLastLe, if_pos he, ih]
      rw [List.takeWhile_cons, if_pos (decide_eq_true he)]
      simp only [List.length_cons]
      rcases Nat.eq_zero_or_pos (rest.takeWhile (fun e => e.1 ≤ cur)).length with h0 | hpos
      · rw [h0, if_pos rfl, if_neg (by omega)]
        omega
      · rw [if_neg (by omega), if_neg (by omega)]
        omega
    · rw [scanLastLe, if_neg he]
      simp [List.takeWhile_cons, he]

theorem takeWhile_le_length_mono (t1 t2 : ℚ) (h : t1 ≤ t2) :
    ∀ l : List (ℚ × Nat),
      (l.takeWhile (fun e => e.1 ≤ t1)).length ≤ (l.takeWhile (fun e => e.1 ≤ t2)).length := by
  intro l
  induction l with
  | nil => simp
  | cons e rest ih =>
    by_cases he : e.1 ≤ t1
    · have he2 : e.1 ≤ t2 := le_trans he h
      rw [List.takeWhile_cons, List.takeWhile_cons, if_pos (decide_eq_true he),
        if_pos (decide_eq_true he2)]
      simp only [List.length_cons]
      omega
    · simp [List.takeWhile_cons, he]

theorem takeWhile_le_length_le (cur : ℚ) (l : List (ℚ × Nat)) :
    (l.takeWhile (fun e => e.1 ≤ cur)).length ≤ l.length :=
  (List.takeWhile_prefix _).length_le

theorem filter_le_eq_takeWhile (t : ℚ) :
    ∀ l : List (ℚ × Nat), l.Pairwise (fun a b => a.1 ≤ b.1) →
      l.filter (fun e => e.1 ≤ t) = l.takeWhile (fun e => e.1 ≤ t) := by
  intro l
  induction l with
  | nil => intro _; rfl
  | cons e rest ih =>
    intro h
    rcases List.pairwise_cons.mp h with ⟨hhead, htail⟩
    by_cases hp : e.1 ≤ t
    · rw [List.filter_cons, List.takeWhile_cons, if_pos (decide_eq_true hp),
        if_pos (decide_eq_true hp), ih htail]
    · rw [List.filter_cons, List.takeWhile_cons, if_neg (by simp [hp]), if_neg (by simp [hp]),
        List.filter_eq_nil_iff]
      intro a ha
      simp only [decide_eq_true_eq]
      intro hat
      exact hp (le_trans (hhead a ha) hat)

theorem takeWhile_getLast?_eq (cur : ℚ) (l : List (ℚ × Nat))
    (hk : (l.takeWhile (fun e => e.1 ≤ cur)).length ≠ 0) :
    (l.takeWhile (fun e => e.1 ≤ cur)).getLast? =
      l[(l.takeWhile (fun e => e.1 ≤ cur)).length - 1]? := by
  have hpre : l.takeWhile (fun e => e.1 ≤ cur) <+: l := List.takeWhile_prefix _
  have htake : l.takeWhile (fun e => e.1 ≤ cur)
      = l.take (l.takeWhile (fun e => e.1 ≤ cur)).length := List.prefix_iff_eq_take.mp hpre
  have h1 : (l.takeWhile (fun e => e.1 ≤ cur)).getLast?
      = (l.take (l.takeWhile (fun e => e.1 ≤ cur)).length).getLast? := by rw [← htake]
  have hlen : (l.take (l.takeWhile (fun e => e.1 ≤ cur)).length).length
      = (l.takeWhile (fun e => e.1 ≤ cur)).length := by rw [← htake]
  rw [h1, List.getLast?_eq_getElem?, hlen, List.getElem?_take, if_pos (by omega)]

theorem resolveLine_cons (e : ℚ × Nat) (rest : List (ℚ × Nat)) (t : ℚ) :
    resolveLine (e :: rest) t
      = some (((e :: rest).getD (scanLastLe t (e :: rest) 0 0) (0, 0)).2) := rfl

/-- C1: corrected.  For a sorted index, the resolver returns `none` exactly on
the empty index; on a nonempty index whose first offset is `≤ t` it returns
the line of the greatest entry with `offset_seconds ≤ t` (the spec-side
`lookupSpec`), but for `t` strictly before the first offset it falls back to
the first entry's line instead of returning no match. -/
theorem lookup_greatest_le_or_head_fallback (index : List (ℚ × Nat)) (t : ℚ)
    (hs : index.Pairwise (fun a b => a.1 ≤ b.1)) :
    (index = [] → resolveLine index t = none)
    ∧ (∀ e rest, index = e :: rest → e.1 ≤ t →
        resolveLine index t = lookupSpec index t ∧ ∃ n, lookupSpec index t = some n)
    ∧ (∀ e rest, index = e :: rest → t < e.1 → resolveLine index t = some e.2) := by
  refine ⟨?_, ?_, ?_⟩
  · rintro rfl; rfl
  · rintro e rest rfl hle
    have hk : (((e :: rest)).takeWhile (fun x => x.1 ≤ t)).length ≠ 0 := by
      rw [List.takeWhile_cons, if_pos (decide_eq_true hle)]
      simp
    have hklen : (((e :: rest)).takeWhile (fun x => x.1 ≤ t)).length ≤ (e :: rest).length :=
      takeWhile_le_length_le t (e :: rest)
    have hidx : (((e :: rest)).takeWhile (fun x => x.1 ≤ t)).length - 1 < (e :: rest).length := by
      omega
    have hget : (e :: rest)[(((e :: rest)).takeWhile (fun x => x.1 ≤ t)).length - 1]?
        = some ((e :: rest).get ⟨(((e :: rest)).takeWhile (fun x => x.1 ≤ t)).length - 1, hidx⟩) := by
      rw [List.getElem?_eq_getElem hidx]
      rfl
    have hlook : lookupSpec (e :: rest) t
        = some (((e :: rest).get ⟨(((e :: rest)).takeWhile (fun x => x.1 ≤ t)).length - 1, hidx⟩).2) := by
      rw [lookupSpec, filter_le_eq_takeWhile t _ hs, takeWhile_getLast?_eq t _ hk, hget]
      rfl
    refine ⟨?_, ⟨_, hlook⟩⟩
    rw [resolveLine_cons, scanLastLe_eq, if_neg hk, hlook]
    rw [List.getD_eq_getElem?_getD, Nat.zero_add, hget]
    rfl
  · rintro e rest rfl hlt
    have hk : (((e :: rest)).takeWhile (fun x => x.1 ≤ t)).length = 0 := by
      rw [List.takeWhile_cons, if_neg (by simp [not_le.mpr hlt])]
      rfl
    rw [resolveLine_cons, scanLastLe_eq, if_pos hk]
    rfl

/-- C1: counterexample to the claim as stated.  From text `"[00:05]a"` the
index is `[(5, 0)]`; at `t = 1`, strictly below the smallest offset `5`, the
code resolves line `0` (and would emit highlight commands for it) instead of
resolving no line. -/
theorem lookup_before_first_offset_counterexample :
    rebuild_lrc_index "[00:05]a" = [(5, 0)]
    ∧ (1 : ℚ) < 5
    ∧ resolveLine (rebuild_lrc_index "[00:05]a") 1 = some 0 := by
  refine ⟨?_, ?_, ?_⟩ <;> with_unfolding_all decide

theorem scanLastLe_zero (cur : ℚ) (l : List (ℚ × Nat)) :
    scanLastLe cur l 0 0 = (l.takeWhile (fun e => e.1 ≤ cur)).length - 1 := by
  rw [scanLastLe_eq]
  split_ifs with h
  · omega
  · omega

/-- C1 witness: the amended characterization applied to the concrete sorted
index `[(3/2, 0), (3, 1)]` at `t = 2` (greatest entry at or before `t`) and
at `t = 1` (before the first offset: fallback to the first entry's line). -/
theorem lookup_greatest_le_or_head_fallback_witness :
    ([((3:ℚ)/2, 0), (3, 1)] : List (ℚ × Nat)).Pairwise (fun a b => a.1 ≤ b.1)
    ∧ resolveLine [((3:ℚ)/2, 0), (3, 1)] 2 = lookupSpec [((3:ℚ)/2, 0), (3, 1)] 2
    ∧ resolveLine [((3:ℚ)/2, 0), (3, 1)] 1 = some 0 := by
  have hs : ([((3:ℚ)/2, 0), (3, 1)] : List (ℚ × Nat)).Pairwise (fun a b => a.1 ≤ b.1) := by
    refine List.pairwise_cons.mpr ⟨?_, List.pairwise_singleton _ _⟩
    intro b hb
    rcases List.mem_singleton.mp hb with rfl
    norm_num
  refine ⟨hs, ?_, ?_⟩
  · exact ((lookup_greatest_le_or_head_fallback _ 2 hs).2.1 ((3:ℚ)/2, 0) [(3, 1)] rfl
      (by norm_num)).1
  · exact (lookup_greatest_le_or_head_fallback _ 1 hs).2.2 ((3:ℚ)/2, 0) [(3, 1)] rfl
      (by norm_num)

/-- C2: amended.  For a fixed index whose entries' line numbers are
non-decreasing in index position (as rebuild produces when the text's tags
appear in chronological order), the resolved line number is monotone in the
query time. -/
theorem resolve_monotone_of_lines_monotone (index : List (ℚ × Nat)) (t1 t2 : ℚ)
    (hmono : index.Pairwise (fun a b => a.2 ≤ b.2)) (ht : t1 ≤ t2)
    (n1 n2 : Nat) (h1 : resolveLine index t1 = some n1)
    (h2 : resolveLine index t2 = some n2) : n1 ≤ n2 := by
  cases index with
  | nil => cases h1
  | cons e rest =>
    have hk12 : ((e :: rest).takeWhile (fun x => x.1 ≤ t1)).length
        ≤ ((e :: rest).takeWhile (fun x => x.1 ≤ t2)).length :=
      takeWhile_le_length_mono t1 t2 ht (e :: rest)
    have hk2len : ((e :: rest).takeWhile (fun x => x.1 ≤ t2)).length ≤ (e :: rest).length :=
      takeWhile_le_length_le t2 (e :: rest)
    have hlen : 0 < (e :: rest).length := by simp
    have hi1 : ((e :: rest).takeWhile (fun x => x.1 ≤ t1)).length - 1 < (e :: rest).length := by
      omega
    have hi2 : ((e :: rest).takeWhile (fun x => x.1 ≤ t2)).length - 1 < (e :: rest).length := by
      omega
    rw [resolveLine_cons, scanLastLe_zero, List.getD_eq_getElem?_getD,
      List.getElem?_eq_getElem hi1] at h1
    rw [resolveLine_cons, scanLastLe_zero, List.getD_eq_getElem?_getD,
      List.getElem?_eq_getElem hi2] at h2
    have hn1 : ((e :: rest)[((e :: rest).takeWhile (fun x => x.1 ≤ t1)).length - 1]).2 = n1 :=
      Option.some.inj h1
    have hn2 : ((e :: rest)[((e :: rest).takeWhile (fun x => x.1 ≤ t2)).length - 1]).2 = n2 :=
      Option.some.inj h2
    rcases Nat.lt_or_ge (((e :: rest).takeWhile (fun x => x.1 ≤ t1)).length - 1)
        (((e :: rest).takeWhile (fun x => x.1 ≤ t2)).length - 1) with hlt | hge
    · have := (List.pairwise_iff_getElem.mp hmono) _ _ hi1 hi2 hlt
      omega
    · have heq : ((e :: rest).takeWhile (fun x => x.1 ≤ t1)).length - 1
          = ((e :: rest).takeWhile (fun x => x.1 ≤ t2)).length - 1 := by omega
      simp only [heq] at hn1
      rw [hn2] at hn1
      omega

/-- C2: counterexample to the claim as stated.  The text
`"[00:05]A\n[00:01]B"` has its tags out of document order; the rebuilt index
is `[(1, 1), (5, 0)]`, and for `t1 = 2 < t2 = 6` both lookups resolve, but
the resolved line numbers are `1` and then `0`, which decrease. -/
theorem lookup_monotonicity_counterexample :
    rebuild_lrc_index "[00:05]A\n[00:01]B" = [(1, 1), (5, 0)]
    ∧ (2 : ℚ) < 6
    ∧ resolveLine (rebuild_lrc_index "[00:05]A\n[00:01]B") 2 = some 1
    ∧ resolveLine (rebuild_lrc_index "[00:05]A\n[00:01]B") 6 = some 0
    ∧ ¬(1 : Nat) ≤ 0 := by
  refine ⟨?_, ?_, ?_, ?_, ?_⟩ <;> with_unfolding_all decide

/-- C2 witness: monotonicity applied to the concrete index `[(1, 0), (5, 1)]`
at times `2 ≤ 6`. -/
theorem resolve_monotone_of_lines_monotone_witness :
    ([((1:ℚ), 0), (5, 1)] : List (ℚ × Nat)).Pairwise (fun a b => a.2 ≤ b.2)
    ∧ (2 : ℚ) ≤ 6
    ∧ resolveLine [((1:ℚ), 0), (5, 1)] 2 = some 0
    ∧ resolveLine [((1:ℚ), 0), (5, 1)] 6 = some 1
    ∧ (0 : Nat) ≤ 1 := by
  have hp : ([((1:ℚ), 0), (5, 1)] : List (ℚ × Nat)).Pairwise (fun a b => a.2 ≤ b.2) := by
    refine List.pairwise_cons.mpr ⟨?_, List.pairwise_singleton _ _⟩
    intro b hb
    rcases List.mem_singleton.mp hb with rfl
    norm_num
  have h1 : resolveLine [((1:ℚ), 0), (5, 1)] 2 = some 0 := by with_unfolding_all decide
  have h2 : resolveLine [((1:ℚ), 0), (5, 1)] 6 = some 1 := by with_unfolding_all decide
  exact ⟨hp, by norm_num, h1, h2,
    resolve_monotone_of_lines_monotone _ 2 6 hp (by norm_num) 0 1 h1 h2⟩

/-- Strict lexicographic order on index entries: smaller offset, or equal
offset and smaller line number. -/
def entryLex (a b : ℚ × Nat) : Prop :=
  a.1 < b.1 ∨ (a.1 = b.1 ∧ a.2 < b.2)

theorem orderedInsert_pairwise_entryLex (e : ℚ × Nat) :
    ∀ (l : List (ℚ × Nat)), l.Pairwise entryLex → (∀ y ∈ l, e.2 < y.2) →
      (List.orderedInsert (fun a b => a.1 ≤ b.1) e l).Pairwise entryLex := by
  intro l
  induction l with
  | nil =>
    intro _ _
    exact List.pairwise_singleton _ _
  | cons x xs ih =>
    intro hl he
    rcases List.pairwise_cons.mp hl with ⟨hx, hxs⟩
    rw [List.orderedInsert]
    by_cases hle : e.1 ≤ x.1
    · rw [if_pos hle]
      refine List.pairwise_cons.mpr ⟨?_, hl⟩
      intro y hy
      have hey : e.2 < y.2 := he y hy
      have h1y : e.1 ≤ y.1 := by
        rcases List.mem_cons.mp hy with rfl | hy'
        · exact hle
        · rcases hx y hy' with h | h
          · exact le_trans hle (le_of_lt h)
          · exact le_trans hle (le_of_eq h.1)
      rcases lt_or_eq_of_le h1y with h | h
      · exact Or.inl h
      · exact Or.inr ⟨h, hey⟩
    · rw [if_neg hle]
      refine List.pairwise_cons.mpr ⟨?_, ih hxs (fun y hy => he y (List.mem_cons_of_mem _ hy))⟩
      intro y hy
      rcases (List.mem_orderedInsert _).mp hy with rfl | hy'
      · exact Or.inl (lt_of_not_le hle)
      · exact hx y hy'

theorem insertionSort_pairwise_entryLex :
    ∀ l : List (ℚ × Nat), l.Pairwise (fun a b => a.2 < b.2) →
      (List.insertionSort (fun a b => a.1 ≤ b.1) l).Pairwise entryLex := by
  intro l
  induction l with
  | nil => intro _; exact List.Pairwise.nil
  | cons x xs ih =>
    intro h
    rcases List.pairwise_cons.mp h with ⟨hx, hxs⟩
    rw [List.insertionSort]
    refine orderedInsert_pairwise_entryLex x _ (ih hxs) ?_
    intro y hy
    exact hx y ((List.mem_insertionSort _).mp hy)

theorem scanEntries_pairwise_snd_lt (lines : List String) :
    (scanEntries lines).Pairwise (fun a b => a.2 < b.2) := by
  rw [scanEntries, List.pairwise_filterMap]
  have henum : lines.enum.Pairwise (fun p q => p.1 < q.1) := by
    rw [List.pairwise_iff_getElem]
    intro i j hi hj hij
    simpa [List.getElem_enum] using hij
  refine henum.imp ?_
  intro p q hpq b hb b' hb'
  rcases Option.map_eq_some'.mp hb with ⟨t, _, rfl⟩
  rcases Option.map_eq_some'.mp hb' with ⟨t', _, rfl⟩
  exact hpq

/-- C6: after every rebuild the index is non-decreasing in `offset_seconds`,
and entries with exactly equal offsets appear in ascending line-number order
(the stable sort preserves the top-to-bottom scan order of the lines). -/
theorem rebuild_sorted_and_ties_in_line_order (text : String) :
    (rebuild_lrc_index text).Pairwise (fun a b => a.1 ≤ b.1)
    ∧ (rebuild_lrc_index text).Pairwise (fun a b => a.1 = b.1 → a.2 < b.2) := by
  have h : (rebuild_lrc_index text).Pairwise entryLex :=
    insertionSort_pairwise_entryLex _ (scanEntries_pairwise_snd_lt (splitLines text))
  constructor
  · refine h.imp ?_
    intro a b hab
    rcases hab with h1 | h1
    · exact le_of_lt h1
    · exact le_of_eq h1.1
  · refine h.imp ?_
    intro a b hab heq
    rcases hab with h1 | h1
    · exact absurd heq (ne_of_lt h1)
    · exact h1.2

theorem scanMatch_eq_some_iff :
    ∀ (cs : List Char) (g : List Char × List Char × Option (List Char)),
      scanMatch cs = some g ↔
        ∃ p, matchAt (cs.drop p) = some g ∧ ∀ q < p, matchAt (cs.drop q) = none := by
  intro cs
  induction cs with
  | nil =>
    intro g
    constructor
    · intro h
      cases h
    · rintro ⟨p, hp, _⟩
      rw [List.drop_nil] at hp
      cases hp
  | cons c cs ih =>
    intro g
    cases hm : matchAt (c :: cs) with
    | some g' =>
      have hsc : scanMatch (c :: cs) = some g' := by rw [scanMatch, hm]
      rw [hsc]
      constructor
      · intro h
        refine ⟨0, ?_, ?_⟩
        · rw [List.drop_zero, hm]
          exact h
        · intro q hq
          exact absurd hq (Nat.not_lt_zero q)
      · rintro ⟨p, hp, hq⟩
        cases p with
        | zero =>
          rw [List.drop_zero, hm] at hp
          exact hp
        | succ p' =>
          have h0 := hq 0 (Nat.succ_pos p')
          rw [List.drop_zero] at h0
          rw [h0] at hm
          cases hm
    | none =>
      have hsc : scanMatch (c :: cs) = scanMatch cs := by rw [scanMatch, hm]
      rw [hsc, ih g]
      constructor
      · rintro ⟨p, hp, hq⟩
        refine ⟨p + 1, by simpa using hp, ?_⟩
        intro q hq'
        cases q with
        | zero => simpa using hm
        | succ q' => simpa using hq q' (Nat.lt_of_succ_lt_succ hq')
      · rintro ⟨p, hp, hq⟩
        cases p with
        | zero =>
          rw [List.drop_zero, hm] at hp
          cases hp
        | succ p' =>
          refine ⟨p', by simpa using hp, ?_⟩
          intro q hq'
          simpa using hq (q + 1) (Nat.succ_lt_succ hq')

theorem mem_scanEntries_iff (lines : List String) (e : ℚ × Nat) :
    e ∈ scanEntries lines ↔
      ∃ h : e.2 < lines.length, firstTag (lines.get ⟨e.2, h⟩) = some e.1 := by
  rw [scanEntries, List.mem_filterMap]
  constructor
  · rintro ⟨⟨i, line⟩, hp, hfp⟩
    rcases Option.map_eq_some'.mp hfp with ⟨t, hft, hte⟩
    have hp' : lines[i]? = some line := List.mk_mem_enum_iff_getElem?.mp hp
    rcases List.getElem?_eq_some.mp hp' with ⟨hi, hline⟩
    have h2 : e.2 = i := by rw [← hte]
    have h1 : e.1 = t := by rw [← hte]
    subst h2 h1
    refine ⟨hi, ?_⟩
    rw [List.get_eq_getElem, hline]
    exact hft
  · rintro ⟨h, hft⟩
    refine ⟨(e.2, lines.get ⟨e.2, h⟩), ?_, ?_⟩
    · refine List.mk_mem_enum_iff_getElem?.mpr ?_
      rw [List.getElem?_eq_getElem h]
      rfl
    · rw [Option.map_eq_some']
      exact ⟨e.1, hft, rfl⟩

/-- C3: after a rebuild on text `T` the index holds exactly one entry
`(offset, i)` for each 0-based line `i` of `T` on which the timestamp regex
matches — the offset taken from the leftmost match of the line
(`scanMatch` succeeds exactly at the least matching position) — one entry
per such line (`Nodup` of the line numbers), nothing for other lines, and
nothing surviving from any earlier state. -/
theorem rebuild_index_entries_exact (text : String) :
    (∀ e : ℚ × Nat, e ∈ rebuild_lrc_index text ↔
        ∃ h : e.2 < (splitLines text).length,
          firstTag ((splitLines text).get ⟨e.2, h⟩) = some e.1)
    ∧ ((rebuild_lrc_index text).map Prod.snd).Nodup
    ∧ (∀ st : SyncState, (rebuild_state st text).lrc_index = rebuild_lrc_index text)
    ∧ (∀ (cs : List Char) (g : List Char × List Char × Option (List Char)),
        scanMatch cs = some g ↔
          ∃ p, matchAt (cs.drop p) = some g ∧ ∀ q < p, matchAt (cs.drop q) = none) := by
  have hperm : (rebuild_lrc_index text).Perm (scanEntries (splitLines text)) :=
    List.perm_insertionSort _ _
  refine ⟨?_, ?_, fun _ => rfl, scanMatch_eq_some_iff⟩
  · intro e
    rw [hperm.mem_iff, mem_scanEntries_iff]
  · have h1 : ((scanEntries (splitLines text)).map Prod.snd).Nodup := by
      have hlt := scanEntries_pairwise_snd_lt (splitLines text)
      rw [List.Nodup, List.pairwise_map]
      exact hlt.imp (fun h => ne_of_lt h)
    exact ((hperm.map Prod.snd).nodup_iff).mpr h1

/-- C3 witness: on the concrete text `"[00:01]a"` the characterization
applied to the concrete member `(1, 0)` of the rebuilt index yields line `0`
with leftmost-tag offset `1`. -/
theorem rebuild_index_entries_exact_witness :
    ∃ h : (0 : Nat) < (splitLines "[00:01]a").length,
      firstTag ((splitLines "[00:01]a").get ⟨0, h⟩) = some 1 := by
  have hmem : ((1 : ℚ), 0) ∈ rebuild_lrc_index "[00:01]a" := by with_unfolding_all decide
  exact ((rebuild_index_entries_exact "[00:01]a").1 ((1 : ℚ), 0)).mp hmem

/-- Concrete text of an optional fraction group: nothing, or `.` followed by
the fraction digits (input-construction helper for stating C4). -/
def fracChars : Option (List Char) → List Char
  | none => []
  | some f => '.' :: f

/-- The spec's normalization of the optional fraction: one digit is tenths,
two digits hundredths, three digits milliseconds — `value / 10 ^ digits`. -/
def fracValue : Option (List Char) → ℚ
  | none => 0
  | some f => (digitsToNat f : ℚ) / 10 ^ f.length

theorem takeDigits_exact (rest : List Char) :
    ∀ ds : List Char, (∀ c ∈ ds, c.isDigit) →
      takeDigits ds.length (ds ++ rest) = some (ds, rest) := by
  intro ds
  induction ds with
  | nil => intro _; rfl
  | cons c ds ih =>
    intro h
    have hc : c.isDigit := h c (List.mem_cons_self c ds)
    rw [List.length_cons, List.cons_append, takeDigits, if_pos hc,
      ih (fun x hx => h x (List.mem_cons_of_mem _ hx))]
    rfl

theorem tryFracN_exact (f : List Char) (rest : List Char) (hf : ∀ c ∈ f, c.isDigit) :
    tryFracN f.length (f ++ (']' :: rest)) = some f := by
  rw [tryFracN, takeDigits_exact (']' :: rest) f hf]
  rfl

theorem matchFracClose_tag (fr : Option (List Char)) (rest : List Char)
    (hfr : ∀ f ∈ fr, (∀ c ∈ f, c.isDigit) ∧ (f.length = 1 ∨ f.length = 2 ∨ f.length = 3)) :
    matchFracClose (fracChars fr ++ (']' :: rest)) = some fr := by
  cases fr with
  | none => rfl
  | some f =>
    rcases hfr f rfl with ⟨hdig, hlen⟩
    rcases hlen with h1 | h2 | h3
    · rcases List.length_eq_one.mp h1 with ⟨x, rfl⟩
      have hx : x.isDigit := hdig x (List.mem_singleton_self x)
      have ht1 : tryFracN 1 (x :: ']' :: rest) = some [x] := by
        simpa using tryFracN_exact [x] rest hdig
      rw [fracChars, List.cons_append, List.singleton_append, matchFracClose]
      simp [tryFracN, takeDigits, hx, ht1]
    · rcases List.length_eq_two.mp h2 with ⟨x, y, rfl⟩
      have hx : x.isDigit := hdig x (by simp)
      have hy : y.isDigit := hdig y (by simp)
      have ht2 : tryFracN 2 (x :: y :: ']' :: rest) = some [x, y] := by
        simpa using tryFracN_exact [x, y] rest hdig
      rw [fracChars, List.cons_append, matchFracClose]
      simp only [List.cons_append, List.nil_append]
      simp [tryFracN, takeDigits, hx, hy, ht2]
    · rcases List.length_eq_three.mp h3 with ⟨x, y, z, rfl⟩
      have ht3 : tryFracN 3 (x :: y :: z :: ']' :: rest) = some [x, y, z] := by
        simpa using tryFracN_exact [x, y, z] rest hdig
      rw [fracChars, List.cons_append, matchFracClose]
      simp only [List.cons_append, List.nil_append]
      rw [ht3]

theorem matchAfterMM_tag (ss : List Char) (fr : Option (List Char)) (rest : List Char)
    (hss : ∀ c ∈ ss, c.isDigit) (hssl : ss.length = 2)
    (hfr : ∀ f ∈ fr, (∀ c ∈ f, c.isDigit) ∧ (f.length = 1 ∨ f.length = 2 ∨ f.length = 3)) :
    matchAfterMM (':' :: (ss ++ (fracChars fr ++ (']' :: rest)))) = some (ss, fr) := by
  have h2 : takeDigits 2 (ss ++ (fracChars fr ++ (']' :: rest)))
      = some (ss, fracChars fr ++ (']' :: rest)) := by
    rw [← hssl]
    exact takeDigits_exact _ ss hss
  rw [matchAfterMM, h2]
  simp [matchFracClose_tag fr rest hfr]

theorem matchAt_tag (mm ss : List Char) (fr : Option (List Char)) (rest : List Char)
    (hmm : ∀ c ∈ mm, c.isDigit) (hmml : mm.length = 1 ∨ mm.length = 2)
    (hss : ∀ c ∈ ss, c.isDigit) (hssl : ss.length = 2)
    (hfr : ∀ f ∈ fr, (∀ c ∈ f, c.isDigit) ∧ (f.length = 1 ∨ f.length = 2 ∨ f.length = 3)) :
    matchAt ('[' :: (mm ++ (':' :: (ss ++ (fracChars fr ++ (']' :: rest))))))
      = some (mm, ss, fr) := by
  rcases hmml with h1 | h2
  · rcases List.length_eq_one.mp h1 with ⟨a, rfl⟩
    have ha : a.isDigit := hmm a (List.mem_singleton_self a)
    have hone : takeDigits 1 (a :: (':' :: (ss ++ (fracChars fr ++ (']' :: rest)))))
        = some ([a], ':' :: (ss ++ (fracChars fr ++ (']' :: rest)))) := by
      simpa using takeDigits_exact _ [a] hmm
    rw [List.singleton_append, matchAt]
    have hfail : takeDigits 2 (a :: (':' :: (ss ++ (fracChars fr ++ (']' :: rest))))) = none := by
      simp [takeDigits, ha]
    rw [hfail, hone]
    simp [matchAfterMM_tag ss fr rest hss hssl hfr]
  · have htwo : takeDigits 2 (mm ++ (':' :: (ss ++ (fracChars fr ++ (']' :: rest)))))
        = some (mm, ':' :: (ss ++ (fracChars fr ++ (']' :: rest)))) := by
      rw [← h2]
      exact takeDigits_exact _ mm hmm
    rw [matchAt, htwo]
    simp [matchAfterMM_tag ss fr rest hss hssl hfr]

theorem tagSeconds_value (mm ss : List Char) (fr : Option (List Char))
    (hfr : ∀ f ∈ fr, (∀ c ∈ f, c.isDigit) ∧ (f.length = 1 ∨ f.length = 2 ∨ f.length = 3)) :
    tagSeconds mm ss fr = (digitsToNat mm : ℚ) * 60 + (digitsToNat ss : ℚ) + fracValue fr := by
  cases fr with
  | none =>
    rw [tagSeconds, fracValue]
    norm_num [digitsToNat]
  | some f =>
    rcases hfr f rfl with ⟨_, hlen⟩
    rcases hlen with h1 | h2 | h3
    · rw [tagSeconds, fracValue]
      simp only [Option.getD_some, h1, if_pos rfl]
      norm_num
    · rw [tagSeconds, fracValue]
      simp only [Option.getD_some, h2]
      norm_num
    · rw [tagSeconds, fracValue]
      simp only [Option.getD_some, h3]
      rw [if_neg (by omega), if_neg (by omega), List.take_of_length_le (le_of_eq h3)]
      norm_num

/-- C4: a matched tag with 1–2 minute digits, exactly 2 second digits (not
range-validated, so seconds beyond 59 are taken arithmetically, e.g.
`[01:75]` is 135), and an optional fraction of 1–3 digits parses to the
offset `mm*60 + ss + frac`, where a 1-digit fraction is scaled by 0.1, a
2-digit one by 0.01 and a 3-digit one by 0.001; in the exact rational model
the equality is exact and therefore within the spec's 1e-6 tolerance. -/
theorem firstTag_offset_value (mm ss : List Char) (fr : Option (List Char)) (rest : List Char)
    (hmm : ∀ c ∈ mm, c.isDigit) (hmml : mm.length = 1 ∨ mm.length = 2)
    (hss : ∀ c ∈ ss, c.isDigit) (hssl : ss.length = 2)
    (hfr : ∀ f ∈ fr, (∀ c ∈ f, c.isDigit) ∧ (f.length = 1 ∨ f.length = 2 ∨ f.length = 3)) :
    ∃ v : ℚ,
      firstTag (String.mk ('[' :: (mm ++ (':' :: (ss ++ (fracChars fr ++ (']' :: rest)))))))
        = some v
      ∧ v = (digitsToNat mm : ℚ) * 60 + (digitsToNat ss : ℚ) + fracValue fr
      ∧ |v - ((digitsToNat mm : ℚ) * 60 + (digitsToNat ss : ℚ) + fracValue fr)|
          ≤ 1 / 1000000 := by
  refine ⟨tagSeconds mm ss fr, ?_, tagSeconds_value mm ss fr hfr, ?_⟩
  · have hm := matchAt_tag mm ss fr rest hmm hmml hss hssl hfr
    rw [firstTag]
    rw [show (String.mk ('[' :: (mm ++ (':' :: (ss ++ (fracChars fr ++ (']' :: rest))))))).data
        = '[' :: (mm ++ (':' :: (ss ++ (fracChars fr ++ (']' :: rest))))) from rfl]
    rw [scanMatch, hm]
    rfl
  · rw [tagSeconds_value mm ss fr hfr]
    simp

/-- C4 witness: the tag `[01:75]` (seconds field 75, beyond 59) followed by
`x` parses to offset `1*60 + 75 = 135`. -/
theorem firstTag_offset_value_witness :
    firstTag (String.mk ('[' :: (['0', '1'] ++ (':' :: (['7', '5']
        ++ (fracChars none ++ (']' :: ['x'])))))))
      = some 135 := by
  obtain ⟨v, hv, hveq, _⟩ := firstTag_offset_value ['0', '1'] ['7', '5'] none ['x']
    (by decide) (by decide) (by decide) (by decide) (by simp)
  have hd1 : digitsToNat ['0', '1'] = 1 := by decide
  have hd2 : digitsToNat ['7', '5'] = 75 := by decide
  rw [hv, hveq, hd1, hd2]
  norm_num [fracValue]

/-- C5: contradicted by the code.  A fraction longer than three digits can
never satisfy the regex (the closing bracket must follow at most three
fraction digits, and backtracking cannot drop the surplus digit), so
`[00:01.1234]Hello` matches nowhere and the line is not indexed at all; the
source's `frac[:3]` truncation branch (commented "treat 3+ digits as
milliseconds (cap to 3)") is unreachable for such tags. -/
theorem four_digit_fraction_line_not_indexed :
    scanMatch "[00:01.1234]Hello".data = none
    ∧ rebuild_lrc_index "[00:01.1234]Hello" = [] := by
  constructor <;> with_unfolding_all decide

/-- C7: counterexample to the claim as stated.  With previous index
`[(1, 0)]` and new text `"[00:02]b"`, the published attribute takes the
successive values old, `[]`, `[(2, 0)]`, `[(2, 0)]`; the intermediate empty
list is neither the complete old index nor the complete new one. -/
theorem rebuild_not_atomic_counterexample :
    rebuildTrace [((1 : ℚ), 0)] "[00:02]b"
        = [[((1 : ℚ), 0)], [], [((2 : ℚ), 0)], [((2 : ℚ), 0)]]
    ∧ ([] : List (ℚ × Nat)) ∈ rebuildTrace [((1 : ℚ), 0)] "[00:02]b"
    ∧ ([] : List (ℚ × Nat)) ≠ [((1 : ℚ), 0)]
    ∧ ([] : List (ℚ × Nat)) ≠ rebuild_lrc_index "[00:02]b" := by
  refine ⟨?_, ?_, ?_, ?_⟩ <;> with_unfolding_all decide

/-- C7: amended.  Rebuild drops the old entries in one rebinding and then
grows and sorts the published list in place: the trace of published values
starts at the old index, every intermediate value is a prefix of the
unsorted scan list (beginning with the empty list), and the final value is
exactly the complete new index. -/
theorem rebuild_trace_shape (old : List (ℚ × Nat)) (text : String) :
    (rebuildTrace old text).head? = some old
    ∧ (rebuildTrace old text).getLast? = some (rebuild_lrc_index text)
    ∧ ∀ s ∈ rebuildTrace old text,
        s = old ∨ (∃ k, s = (scanEntries (splitLines text)).take k)
          ∨ s = rebuild_lrc_index text := by
  have htr : rebuildTrace old text
      = (old :: (List.range ((scanEntries (splitLines text)).length + 1)).map
            (scanEntries (splitLines text)).take)
          ++ [rebuild_lrc_index text] := rfl
  rw [htr]
  refine ⟨rfl, List.getLast?_concat _, ?_⟩
  intro s hs
  rcases List.mem_append.mp hs with hs | hs
  · rcases List.mem_cons.mp hs with rfl | hs
    · exact Or.inl rfl
    · rcases List.mem_map.mp hs with ⟨k, _, rfl⟩
      exact Or.inr (Or.inl ⟨k, rfl⟩)
  · rw [List.mem_singleton.mp hs]
    exact Or.inr (Or.inr rfl)

theorem update_lrc_highlight_none (st : SyncState) (cur : ℚ)
    (h : resolveLine st.lrc_index cur = none) :
    update_lrc_highlight st cur = (st, []) := by
  rw [update_lrc_highlight, h]

theorem update_lrc_highlight_some (st : SyncState) (cur : ℚ) (n : Nat)
    (h : resolveLine st.lrc_index cur = some n) :
    update_lrc_highlight st cur =
      if (n : ℤ) ≠ st.current_line_no then
        ({ st with current_line_no := (n : ℤ) },
          [Cmd.scrollBoth n, Cmd.highlight View.editor n, Cmd.highlight View.editorOriginal n])
      else (st, []) := by
  rw [update_lrc_highlight, h]

theorem update_preserves_index (st : SyncState) (cur : ℚ) :
    (update_lrc_highlight st cur).1.lrc_index = st.lrc_index := by
  cases hres : resolveLine st.lrc_index cur with
  | none => rw [update_lrc_highlight_none st cur hres]
  | some n =>
    rw [update_lrc_highlight_some st cur n hres]
    by_cases h : (n : ℤ) ≠ st.current_line_no
    · rw [if_pos h]
    · rw [if_neg h]

/-- C8: a time update resolving to the line already held in
`_current_line_no` is a no-op (same state, no commands); of two consecutive
updates resolving to the same line the second never emits anything, so the
pair emits at most one highlight batch; and `_current_line_no` changes only
when the fresh resolution differs from the previous one. -/
theorem update_highlight_dedup (st : SyncState) (cur cur2 : ℚ) :
    (∀ n, resolveLine st.lrc_index cur = some n → (n : ℤ) = st.current_line_no →
        update_lrc_highlight st cur = (st, []))
    ∧ (resolveLine st.lrc_index cur = resolveLine st.lrc_index cur2 →
        (update_lrc_highlight (update_lrc_highlight st cur).1 cur2).2 = [])
    ∧ ((update_lrc_highlight st cur).1.current_line_no ≠ st.current_line_no →
        ∃ n, resolveLine st.lrc_index cur = some n ∧ (n : ℤ) ≠ st.current_line_no
          ∧ (update_lrc_highlight st cur).1.current_line_no = (n : ℤ)) := by
  refine ⟨?_, ?_, ?_⟩
  · intro n hres heq
    rw [update_lrc_highlight_some st cur n hres, if_neg (by simp [heq])]
  · intro hsame
    cases hres : resolveLine st.lrc_index cur with
    | none =>
      have h2 : resolveLine st.lrc_index cur2 = none := by rw [← hsame, hres]
      rw [update_lrc_highlight_none st cur hres]
      rw [update_lrc_highlight_none st cur2 h2]
    | some n =>
      have h2 : resolveLine st.lrc_index cur2 = some n := by rw [← hsame, hres]
      by_cases h : (n : ℤ) = st.current_line_no
      · rw [update_lrc_highlight_some st cur n hres, if_neg (by simp [h])]
        rw [update_lrc_highlight_some st cur2 n h2, if_neg (by simp [h])]
      · rw [update_lrc_highlight_some st cur n hres, if_pos h]
        have h2' : resolveLine
            ({ st with current_line_no := (n : ℤ) } : SyncState).lrc_index cur2 = some n := h2
        rw [update_lrc_highlight_some _ cur2 n h2', if_neg (by simp)]
  · intro hne
    cases hres : resolveLine st.lrc_index cur with
    | none =>
      exact absurd (by rw [update_lrc_highlight_none st cur hres]) hne
    | some n =>
      by_cases h : (n : ℤ) = st.current_line_no
      · exact absurd (by rw [update_lrc_highlight_some st cur n hres, if_neg (by simp [h])]) hne
      · refine ⟨n, rfl, h, ?_⟩
        rw [update_lrc_highlight_some st cur n hres, if_pos h]

/-- C8 witness: with index `[(1, 0)]` and `_current_line_no = 0`, the update
at time `2` resolves line `0` and is a complete no-op. -/
theorem update_highlight_dedup_witness :
    resolveLine ([((1 : ℚ), 0)] : List (ℚ × Nat)) 2 = some 0
    ∧ update_lrc_highlight ⟨[((1 : ℚ), 0)], 0, false⟩ 2
        = (⟨[((1 : ℚ), 0)], 0, false⟩, []) := by
  have h1 : resolveLine ([((1 : ℚ), 0)] : List (ℚ × Nat)) 2 = some 0 := by
    with_unfolding_all decide
  exact ⟨h1, (update_highlight_dedup ⟨[((1 : ℚ), 0)], 0, false⟩ 2 2).1 0 h1 rfl⟩

/-- C9: both coupling entry points return immediately, scrolling nothing,
when invoked while `_sync_lock` is already held, and a top-level call always
leaves the lock released — also when the inner view adjustment raises (the
`finally` resets it and the exception propagates). -/
theorem scroll_coupler_reentrancy (adj : View → Nat → Align → AdjOutcome) (line : Nat)
    (srcTopLine dstBlockCount : Nat) (dst : View) :
    scroll_both_to_line true adj line = { lock := true, scrolls := [], raised := false }
    ∧ sync_scroll_from true adj srcTopLine dstBlockCount dst
        = { lock := true, scrolls := [], raised := false }
    ∧ (scroll_both_to_line false adj line).lock = false
    ∧ (sync_scroll_from false adj srcTopLine dstBlockCount dst).lock = false := by
  refine ⟨rfl, rfl, ?_, ?_⟩
  · cases h1 : adj View.editorOriginal line Align.center <;>
      cases h2 : adj View.editor line Align.center <;>
      simp [scroll_both_to_line, h1, h2]
  · cases h : adj dst (max 0 (min (srcTopLine : ℤ) ((dstBlockCount : ℤ) - 1))).toNat Align.top <;>
      simp [sync_scroll_from, h]

/-- C10: `_current_line_no` is `-1` only at construction: index rebuilds and
`load_audio` leave it unchanged and an update writes only non-negative
resolved line numbers; consequently, right after loading a different
document, a time update resolving to the stale highlight line left over from
the previous document emits nothing. -/
theorem current_line_no_lifecycle :
    build_ui_state.current_line_no = -1
    ∧ (∀ (st : SyncState) (text : String),
        (rebuild_state st text).current_line_no = st.current_line_no)
    ∧ (∀ (st : SyncState) (e : Bool) (c : String),
        (load_audio st e c).current_line_no = st.current_line_no)
    ∧ (∀ (st : SyncState) (cur : ℚ),
        (update_lrc_highlight st cur).1.current_line_no = st.current_line_no
        ∨ ∃ n : Nat, (update_lrc_highlight st cur).1.current_line_no = (n : ℤ))
    ∧ (∀ (st : SyncState) (e : Bool) (c : String) (cur : ℚ) (n : Nat),
        resolveLine (load_audio st e c).lrc_index cur = some n →
        (n : ℤ) = st.current_line_no →
        update_lrc_highlight (load_audio st e c) cur = (load_audio st e c, [])) := by
  have hload : ∀ (st : SyncState) (e : Bool) (c : String),
      (load_audio st e c).current_line_no = st.current_line_no := by
    intro st e c
    cases e <;> rfl
  refine ⟨rfl, fun st text => rfl, hload, ?_, ?_⟩
  · intro st cur
    cases hres : resolveLine st.lrc_index cur with
    | none =>
      left
      rw [update_lrc_highlight_none st cur hres]
    | some n =>
      by_cases h : (n : ℤ) ≠ st.current_line_no
      · right
        exact ⟨n, by rw [update_lrc_highlight_some st cur n hres, if_pos h]⟩
      · left
        rw [update_lrc_highlight_some st cur n hres, if_neg h]
  · intro st e c cur n hres heq
    rw [update_lrc_highlight_some _ cur n hres, if_neg (by simp [hload st e c, heq])]

/-- C10 witness: the state left by the previous document has
`_current_line_no = 0`; loading `"[00:02]x"` keeps it, and the first update
(at time `3`, resolving the new document's line `0`) emits nothing. -/
theorem current_line_no_lifecycle_witness :
    resolveLine (load_audio ⟨[((1 : ℚ), 0)], 0, false⟩ true "[00:02]x").lrc_index 3 = some 0
    ∧ update_lrc_highlight (load_audio ⟨[((1 : ℚ), 0)], 0, false⟩ true "[00:02]x") 3
        = (load_audio ⟨[((1 : ℚ), 0)], 0, false⟩ true "[00:02]x", []) := by
  have h1 : resolveLine (load_audio ⟨[((1 : ℚ), 0)], 0, false⟩ true "[00:02]x").lrc_index 3
      = some 0 := by
    with_unfolding_all decide
  exact ⟨h1, current_line_no_lifecycle.2.2.2.2 ⟨[((1 : ℚ), 0)], 0, false⟩ true "[00:02]x"
    3 0 h1 rfl⟩

/-- C7 witness: the trace-shape theorem applied to the intermediate empty
state of the concrete rebuild from `"[00:02]b"` over the old index
`[(1, 0)]`: the empty list is one of the scan prefixes. -/
theorem rebuild_trace_shape_witness :
    ([] : List (ℚ × Nat)) ∈ rebuildTrace [((1 : ℚ), 0)] "[00:02]b"
    ∧ (([] : List (ℚ × Nat)) = [((1 : ℚ), 0)]
        ∨ (∃ k, ([] : List (ℚ × Nat)) = (scanEntries (splitLines "[00:02]b")).take k)
        ∨ ([] : List (ℚ × Nat)) = rebuild_lrc_index "[00:02]b") := by
  have hmem : ([] : List (ℚ × Nat)) ∈ rebuildTrace [((1 : ℚ), 0)] "[00:02]b" := by
    with_unfolding_all decide
  exact ⟨hmem, (rebuild_trace_shape [((1 : ℚ), 0)] "[00:02]b").2.2 [] hmem⟩
